import Mathlib

/-!
Verification development for `refactor_imports.py`.

The script applies three regex substitutions, in order, to the content of one
target file, writes the file back only when the content changed, reports
errors, and unconditionally prints a final success line.

The three substitution rules (Python `re.sub`, which rewrites every
non-overlapping occurrence, scanning left to right, with greedy quantifiers):

  1. `"\./ipc/([^"]+)"`            ->  `"./handlers/\1.handler"`
  2. `import \* as (\w+)Ipc`       ->  `import * as \1Handler`
  3. `(\w+)Ipc\.register`          ->  `\1Handler.register`

The embedding works on `List Char`.  Each rule is modelled by a matcher
`mt : List Char → Option (List Char × List Char)` that decides whether the
regex matches at the head of the list and, if so, returns the replacement text
together with the remainder of the list after the matched span.  A generic
scanner `runSub` then reproduces `re.sub`: it tries the matcher at each
position from the left; on a match it emits the replacement and resumes after
the matched span, otherwise it keeps the character and moves one position
right.  `\w` is modelled over ASCII word characters (letters, digits,
underscore), which covers all inputs appearing in the claims.
-/

namespace RefactorImports

/-- ASCII model of the regex class `\w` (letter, digit or underscore). -/
def isWordChar (c : Char) : Bool := c.isAlpha || c.isDigit || c == '_'

/-- Model of the regex class `[^"]`: any character other than a double quote. -/
def notQuote (c : Char) : Bool := c != '"'

/-- Every character of the list is different from `"`. -/
def noQuote (l : List Char) : Bool := l.all notQuote

/-- Strip the literal `pre` from the front of `s`; `none` if `s` does not
start with `pre`. -/
def dropPre : List Char → List Char → Option (List Char)
  | [], s => some s
  | _ :: _, [] => none
  | p :: ps, c :: cs => if c = p then dropPre ps cs else none

/-- The literal prefix of rule 1's pattern: a double quote followed by `./ipc/`. -/
def ipcPat : List Char := "\"./ipc/".data

/-- The literal prefix of rule 2's pattern: `import * as `. -/
def importPat : List Char := "import * as ".data

/-- The literal tail of rule 3's pattern: `.register`. -/
def registerPat : List Char := ".register".data

/-- Does the list start with the three characters `Ipc`? -/
def startsIpc (l : List Char) : Bool := decide (l.take 3 = 'I' :: 'p' :: 'c' :: [])

/-- Does `Ipc` occur anywhere in the list? -/
def hasIpc : List Char → Bool
  | [] => false
  | c :: cs => startsIpc (c :: cs) || hasIpc cs

/-- Split `l` at the rightmost occurrence of `Ipc` that has at least one
character before it: `lastIpcSplit l = some (cap, tail)` with
`l = cap ++ Ipc ++ tail` and `cap ≠ []`, choosing the largest possible `cap`.
This models the backtracking of the greedy `(\w+)` before the literal `Ipc`
in rule 2: the regex engine first lets `\w+` consume the whole run of word
characters and then backs off as little as possible, so the literal `Ipc`
ends up at its rightmost occurrence. -/
def lastIpcSplit : List Char → Option (List Char × List Char)
  | [] => none
  | c :: cs =>
    match lastIpcSplit cs with
    | some (cap, tail) => some (c :: cap, tail)
    | none => if startsIpc cs then some (c :: [], cs.drop 3) else none

/-- Matcher for rule 1: `"\./ipc/([^"]+)"` at the head of the list.
After the literal `"./ipc/`, the greedy `[^"]+` consumes the maximal run of
non-quote characters, which must be nonempty and followed by a closing
quote. Replacement template: `"./handlers/\1.handler"`. -/
def mt1 (s : List Char) : Option (List Char × List Char) :=
  match dropPre ipcPat s with
  | none => none
  | some body =>
    match body.takeWhile notQuote, dropPre ('"' :: []) (body.dropWhile notQuote) with
    | [], _ => none
    | _ :: _, none => none
    | name, some post =>
        some ("\"./handlers/".data ++ (name ++ ".handler\"".data), post)

/-- Matcher for rule 2: `import \* as (\w+)Ipc` at the head of the list.
After the literal `import * as `, the greedy `(\w+)` backtracks from the
maximal run of word characters to place the literal `Ipc` at its rightmost
occurrence inside the run (with a nonempty capture before it).  The match
ends right after that `Ipc`; the remainder of the word run stays in place.
Replacement template: `import * as \1Handler`. -/
def mt2 (s : List Char) : Option (List Char × List Char) :=
  match dropPre importPat s with
  | none => none
  | some rest =>
    match lastIpcSplit (rest.takeWhile isWordChar) with
    | none => none
    | some (cap, tail) =>
        some (importPat ++ cap ++ "Handler".data, tail ++ rest.dropWhile isWordChar)

/-- Matcher for rule 3: `(\w+)Ipc\.register` at the head of the list.
Since `.` is not a word character, the literal `Ipc` must sit at the end of
the maximal word-character run starting here, with a nonempty capture before
it, and the run must be followed by the literal `.register`.
Replacement template: `\1Handler.register`. -/
def mt3 (s : List Char) : Option (List Char × List Char) :=
  match dropPre registerPat (s.dropWhile isWordChar) with
  | none => none
  | some post =>
    let run := s.takeWhile isWordChar
    if 4 ≤ run.length ∧ run.drop (run.length - 3) = 'I' :: 'p' :: 'c' :: [] then
      some (run.take (run.length - 3) ++ "Handler.register".data, post)
    else none

/-- The `re.sub` scan: try the matcher at each position from the left; on a
match emit the replacement and resume after the matched span, otherwise keep
the character and move right.  `fuel` bounds the number of steps; since every
match of the three rule matchers consumes at least one character, an initial
fuel equal to the length of the list always suffices. -/
def runSub (mt : List Char → Option (List Char × List Char)) :
    Nat → List Char → List Char
  | _, [] => []
  | 0, c :: cs => c :: cs
  | fuel + 1, c :: cs =>
    match mt (c :: cs) with
    | some (rep, rest) => rep ++ runSub mt fuel rest
    | none => c :: runSub mt fuel cs

/-- One whole `re.sub` pass over the list. -/
def reSub (mt : List Char → Option (List Char × List Char)) (s : List Char) :
    List Char := runSub mt s.length s

/-- The ordered rule list `replacements` of the script, each pair
`(pattern, replacement)` embedded as its `re.sub` pass. -/
def replacements : List (List Char → List Char) := [reSub mt1, reSub mt2, reSub mt3]

/-- The loop `for pattern, replacement in replacements: new_content =
re.sub(pattern, replacement, new_content)`: a left fold of the rule list over
the content. -/
def applyAll (content : List Char) : List Char :=
  replacements.foldl (fun acc r => r acc) content

/-- The transformed content, as a `String`. -/
def processContent (s : String) : String := String.mk (applyAll s.data)

/-- Outcome of the read attempt `open(filepath, 'r').read()`: either the
content is obtained, or an exception carrying a message is raised. -/
inductive ReadOutcome where
  | ok : ReadOutcome
  | fail (msg : String) : ReadOutcome
deriving DecidableEq

/-- Outcome of the write attempt `open(filepath, 'w').write(new_content)`.
Python's mode `'w'` truncates the file as soon as the open succeeds, so a
failure raised by the write itself leaves the file holding only the prefix of
the new content written so far (`written` characters); a failure of the open
leaves the file untouched. -/
inductive WriteOutcome where
  | ok : WriteOutcome
  | openFail (msg : String) : WriteOutcome
  | failAfter (written : Nat) (msg : String) : WriteOutcome
deriving DecidableEq

/-- One line of console output of the script: `print(f"Updated {filepath}")`,
`print(f"Error {filepath}: {e}")`, or the final
`print("Backend import refactor successful.")`. -/
inductive Line where
  | updated (path : String) : Line
  | error (path : String) (msg : String) : Line
  | success : Line
deriving DecidableEq

/-- The state of the single target file: its current content. -/
structure FileState where
  content : String
deriving DecidableEq

/-- The hardcoded path passed to `process_file`. -/
def targetPath : String := "electron/src/main.ts"

/-- Model of `process_file(filepath)`.  The whole body sits in a
`try/except Exception` block, so the function never re-raises: it returns the
resulting file state together with the list of printed lines.  On a read
failure nothing else happens; otherwise the content is transformed by the
rule fold, and only if it changed is the file opened for writing (truncating)
and rewritten, printing `Updated` on success and `Error` on any caught
failure. -/
def process_file (ro : ReadOutcome) (wo : WriteOutcome) (filepath : String)
    (st : FileState) : FileState × List Line :=
  match ro with
  | ReadOutcome.fail msg => (st, [Line.error filepath msg])
  | ReadOutcome.ok =>
    let content := st.content
    let new_content := processContent content
    if new_content = content then (st, [])
    else
      match wo with
      | WriteOutcome.ok => (⟨new_content⟩, [Line.updated filepath])
      | WriteOutcome.openFail msg => (st, [Line.error filepath msg])
      | WriteOutcome.failAfter k msg =>
          (⟨String.mk (new_content.data.take k)⟩, [Line.error filepath msg])

/-- Model of the module level: `process_file('electron/src/main.ts')` followed
by the unconditional `print("Backend import refactor successful.")`. -/
def main_run (ro : ReadOutcome) (wo : WriteOutcome) (st : FileState) :
    FileState × List Line :=
  let r := process_file ro wo targetPath st
  (r.1, r.2 ++ [Line.success])

/-- A whole source operand of rule 1: the quoted path `"./ipc/<name>"`. -/
def ipcRef (name : List Char) : List Char := ipcPat ++ (name ++ ('"' :: []))

/-- A whole result of rule 1: the quoted path `"./handlers/<name>.handler"`. -/
def handlerRef (name : List Char) : List Char :=
  "\"./handlers/".data ++ (name ++ ".handler\"".data)

/-- Does the matcher fire at some position of the list?  This is the model of
"the pattern matches somewhere in the content". -/
def hasMatch (mt : List Char → Option (List Char × List Char)) : List Char → Bool
  | [] => false
  | c :: cs => (mt (c :: cs)).isSome || hasMatch mt cs

theorem ipcPat_eq : ipcPat = '"' :: ('.' :: ('/' :: ('i' :: ('p' :: ('c' :: ('/' :: [])))))) := rfl

theorem ipcRef_append (name rest : List Char) :
    ipcRef name ++ rest = ipcPat ++ (name ++ ('"' :: rest)) := by
  simp [ipcRef, List.append_assoc]

theorem dropPre_append (lit r : List Char) : dropPre lit (lit ++ r) = some r := by
  induction lit with
  | nil => rfl
  | cons p ps ih => simp [dropPre, ih]

theorem dropPre_sound {lit s r : List Char} (h : dropPre lit s = some r) :
    s = lit ++ r := by
  induction lit generalizing s with
  | nil =>
    simp only [dropPre, Option.some.injEq] at h
    simp [h]
  | cons p ps ih =>
    cases s with
    | nil => simp [dropPre] at h
    | cons c cs =>
      by_cases hc : c = p
      · subst hc
        simp only [dropPre, if_pos rfl] at h
        simpa using ih h
      · simp [dropPre, hc] at h

theorem takeWhile_noQuote {name : List Char} (h : noQuote name = true) (r : List Char) :
    (name ++ ('"' :: r)).takeWhile notQuote = name ∧
      (name ++ ('"' :: r)).dropWhile notQuote = '"' :: r := by
  induction name with
  | nil => simp [List.takeWhile, List.dropWhile, notQuote]
  | cons c cs ih =>
    have hc : notQuote c = true := by
      have := h
      simp [noQuote, List.all_cons] at this
      simpa [notQuote] using this.1
    have hcs : noQuote cs = true := by
      have := h
      simp [noQuote, List.all_cons] at this
      simpa [noQuote] using this.2
    have := ih hcs
    simp [List.takeWhile, List.dropWhile, hc, this.1, this.2]

theorem takeWhile_word_all {l : List Char} (h : l.all isWordChar = true) :
    l.takeWhile isWordChar = l ∧ l.dropWhile isWordChar = [] := by
  induction l with
  | nil => simp [List.takeWhile, List.dropWhile]
  | cons c cs ih =>
    simp only [List.all_cons, Bool.and_eq_true] at h
    have := ih h.2
    simp [List.takeWhile, List.dropWhile, h.1, this.1, this.2]

theorem mt1_none_head {c : Char} (h : c ≠ '"') (t : List Char) : mt1 (c :: t) = none := by
  simp [mt1, ipcPat_eq, dropPre, h]

theorem mt1_matches {name : List Char} (hne : name ≠ []) (hnq : noQuote name = true)
    (rest : List Char) :
    mt1 (ipcPat ++ (name ++ ('"' :: rest))) = some (handlerRef name, rest) := by
  have htw := takeWhile_noQuote hnq rest
  have hq : dropPre ('"' :: []) ('"' :: rest) = some rest := by
    simp [dropPre]
  cases name with
  | nil => exact absurd rfl hne
  | cons a as =>
    simp only [mt1, dropPre_append, htw.1, htw.2, hq, handlerRef, List.append_assoc]

theorem startsIpc_iff {l : List Char} :
    startsIpc l = true ↔ ∃ r, l = 'I' :: ('p' :: ('c' :: r)) := by
  constructor
  · intro h
    have h3 : l.take 3 = 'I' :: ('p' :: ('c' :: [])) := by
      simpa [startsIpc] using h
    refine ⟨l.drop 3, ?_⟩
    have htd := List.take_append_drop 3 l
    rw [h3] at htd
    simpa using htd.symm
  · rintro ⟨r, rfl⟩
    simp [startsIpc, List.take_succ_cons]

theorem startsIpc_Ipc (r : List Char) : startsIpc ('I' :: ('p' :: ('c' :: r))) = true := by
  simp [startsIpc, List.take_succ_cons]

theorem startsIpc_cons_ne {c : Char} (h : c ≠ 'I') (l : List Char) :
    startsIpc (c :: l) = false := by
  simp only [startsIpc, List.take_succ_cons, decide_eq_false_iff_not]
  intro he
  injection he with h1 _
  exact h h1

theorem startsIpc_append {l : List Char} (h : startsIpc l = true) (b : List Char) :
    startsIpc (l ++ b) = true := by
  obtain ⟨r, rfl⟩ := startsIpc_iff.mp h
  simpa [List.cons_append] using startsIpc_Ipc (r ++ b)

theorem hasIpc_Ipc (r : List Char) : hasIpc ('I' :: ('p' :: ('c' :: r))) = true := by
  simp [hasIpc, startsIpc_Ipc]

theorem hasIpc_append_right {b : List Char} (h : hasIpc b = true) (a : List Char) :
    hasIpc (a ++ b) = true := by
  induction a with
  | nil => simpa using h
  | cons c cs ih => simp [hasIpc, ih]

theorem hasIpc_append_left {a : List Char} (h : hasIpc a = true) (b : List Char) :
    hasIpc (a ++ b) = true := by
  induction a with
  | nil => simp [hasIpc] at h
  | cons c cs ih =>
    simp only [hasIpc, Bool.or_eq_true] at h
    rcases h with h | h
    · have h2 := startsIpc_append h b
      rw [List.cons_append] at h2
      simp [hasIpc, h2]
    · simp [hasIpc, ih h]

theorem hasIpc_append_quote (a b : List Char) (h : hasIpc (a ++ ('"' :: b)) = true) :
    hasIpc a = true ∨ hasIpc b = true := by
  induction a with
  | nil =>
    right
    have hs : startsIpc ('"' :: b) = false := startsIpc_cons_ne (by decide) _
    simpa [hasIpc, hs] using h
  | cons c a2 ih =>
    rw [List.cons_append] at h
    simp only [hasIpc, Bool.or_eq_true] at h
    rcases h with h | h
    · obtain ⟨r, hr⟩ := startsIpc_iff.mp h
      cases a2 with
      | nil =>
        exfalso
        simp only [List.nil_append] at hr
        injection hr with h1 hr2
        injection hr2 with h2 _
        exact absurd h2 (by decide)
      | cons d a3 =>
        cases a3 with
        | nil =>
          exfalso
          simp only [List.cons_append, List.nil_append] at hr
          injection hr with h1 hr2
          injection hr2 with h2 hr3
          injection hr3 with h3 _
          exact absurd h3 (by decide)
        | cons e a4 =>
          left
          simp only [List.cons_append] at hr
          injection hr with h1 hr2
          injection hr2 with h2 hr3
          injection hr3 with h3 _
          subst h1; subst h2; subst h3
          simp [hasIpc, startsIpc_Ipc]
    · rcases ih h with h2 | h2
      · left
        simp [hasIpc, h2]
      · right
        exact h2

theorem lastIpcSplit_sound {l cap tail : List Char}
    (h : lastIpcSplit l = some (cap, tail)) :
    l = cap ++ ('I' :: ('p' :: ('c' :: tail))) ∧ cap ≠ [] := by
  induction l generalizing cap tail with
  | nil => simp [lastIpcSplit] at h
  | cons c cs ih =>
    simp only [lastIpcSplit] at h
    cases hcs : lastIpcSplit cs with
    | some p =>
      obtain ⟨cap2, t2⟩ := p
      rw [hcs] at h
      simp only [Option.some.injEq, Prod.mk.injEq] at h
      obtain ⟨hcap, htail⟩ := h
      obtain ⟨hdec, hne⟩ := ih hcs
      subst htail
      constructor
      · rw [← hcap, hdec]
        simp [List.cons_append]
      · rw [← hcap]
        simp
    | none =>
      rw [hcs] at h
      by_cases hs : startsIpc cs
      · rw [if_pos hs] at h
        simp only [Option.some.injEq, Prod.mk.injEq] at h
        obtain ⟨hcap, htail⟩ := h
        obtain ⟨r, hr⟩ := startsIpc_iff.mp hs
        subst hr
        simp only [List.drop_succ_cons, List.drop_zero] at htail
        rw [← hcap, ← htail]
        simp [List.cons_append]
      · rw [if_neg hs] at h
        cases h

theorem lastIpcSplit_eq_none {cs : List Char} (h : hasIpc cs = false) (c : Char) :
    lastIpcSplit (c :: cs) = none := by
  induction cs generalizing c with
  | nil => rfl
  | cons d ds ih =>
    simp only [hasIpc, Bool.or_eq_false_iff] at h
    rw [lastIpcSplit, ih h.2 d]
    simp [h.1]

theorem lastIpcSplit_last {w rest : List Char} (hw : w ≠ []) (hr : hasIpc rest = false) :
    lastIpcSplit (w ++ ('I' :: ('p' :: ('c' :: rest)))) = some (w, rest) := by
  induction w with
  | nil => exact absurd rfl hw
  | cons a w2 ih =>
    cases w2 with
    | nil =>
      have hinner : lastIpcSplit ('I' :: ('p' :: ('c' :: rest))) = none := by
        apply lastIpcSplit_eq_none
        have h1 : startsIpc ('p' :: ('c' :: rest)) = false := startsIpc_cons_ne (by decide) _
        have h2 : startsIpc ('c' :: rest) = false := startsIpc_cons_ne (by decide) _
        simp [hasIpc, h1, h2, hr]
      simp only [List.cons_append, List.nil_append]
      rw [lastIpcSplit, hinner]
      simp [startsIpc_Ipc, List.drop_succ_cons]
    | cons b w3 =>
      have hi := ih (by simp)
      simp only [List.cons_append] at hi ⊢
      rw [lastIpcSplit, hi]

theorem mt1_some_shape {s rep rest : List Char} (h : mt1 s = some (rep, rest)) :
    ∃ name, s = ipcPat ++ (name ++ ('"' :: rest)) ∧ name ≠ [] ∧
      rep = "\"./handlers/".data ++ (name ++ ".handler\"".data) := by
  unfold mt1 at h
  cases hd : dropPre ipcPat s with
  | none => rw [hd] at h; cases h
  | some body =>
    rw [hd] at h
    dsimp only at h
    cases htw : body.takeWhile notQuote with
    | nil => rw [htw] at h; simp at h
    | cons a as =>
      cases hdq : dropPre ('"' :: []) (body.dropWhile notQuote) with
      | none => rw [htw, hdq] at h; simp at h
      | some post =>
        rw [htw, hdq] at h
        dsimp only at h
        simp only [Option.some.injEq, Prod.mk.injEq] at h
        obtain ⟨hrep, hpost⟩ := h
        refine ⟨a :: as, ?_, by simp, hrep.symm⟩
        have hbody : body = (a :: as) ++ ('"' :: rest) := by
          have h1 := List.takeWhile_append_dropWhile (p := notQuote) (l := body)
          rw [htw, dropPre_sound hdq, hpost] at h1
          simpa using h1.symm
        rw [dropPre_sound hd, hbody]

theorem mt1_shrink {s rep rest : List Char} (h : mt1 s = some (rep, rest)) :
    rest.length < s.length := by
  obtain ⟨name, hs, -, -⟩ := mt1_some_shape h
  rw [hs]
  simp [List.length_append, ipcPat_eq]
  omega

theorem mt2_some_shape {s rep rest : List Char} (h : mt2 s = some (rep, rest)) :
    ∃ cap tail dw, s = importPat ++ ((cap ++ ('I' :: ('p' :: ('c' :: tail)))) ++ dw) ∧
      cap ≠ [] ∧ rep = importPat ++ cap ++ "Handler".data ∧ rest = tail ++ dw := by
  unfold mt2 at h
  cases hd : dropPre importPat s with
  | none => rw [hd] at h; cases h
  | some body =>
    rw [hd] at h
    dsimp only at h
    cases hl : lastIpcSplit (body.takeWhile isWordChar) with
    | none => rw [hl] at h; dsimp only at h; cases h
    | some p =>
      obtain ⟨cap, tail⟩ := p
      rw [hl] at h
      dsimp only at h
      simp only [Option.some.injEq, Prod.mk.injEq] at h
      obtain ⟨hrep, hrest⟩ := h
      obtain ⟨hsp, hne⟩ := lastIpcSplit_sound hl
      refine ⟨cap, tail, body.dropWhile isWordChar, ?_, hne, hrep.symm, hrest.symm⟩
      have h1 := List.takeWhile_append_dropWhile (p := isWordChar) (l := body)
      rw [hsp] at h1
      rw [dropPre_sound hd, h1]

theorem mt2_shrink {s rep rest : List Char} (h : mt2 s = some (rep, rest)) :
    rest.length < s.length := by
  obtain ⟨cap, tail, dw, hs, hne, -, hrest⟩ := mt2_some_shape h
  rw [hs, hrest]
  have : 1 ≤ cap.length := by
    cases cap with
    | nil => exact absurd rfl hne
    | cons x xs => simp
  simp [List.length_append, importPat]
  omega

theorem mt2_some_space {s : List Char} {x : List Char × List Char}
    (h : mt2 s = some x) : ' ' ∈ s := by
  obtain ⟨rep, rest⟩ := x
  obtain ⟨cap, tail, dw, hs, -, -, -⟩ := mt2_some_shape h
  rw [hs]
  apply List.mem_append_left
  decide

theorem mt2_some_hasIpc {s : List Char} {x : List Char × List Char}
    (h : mt2 s = some x) : hasIpc s = true := by
  obtain ⟨rep, rest⟩ := x
  obtain ⟨cap, tail, dw, hs, -, -, -⟩ := mt2_some_shape h
  rw [hs]
  apply hasIpc_append_right
  rw [List.append_assoc]
  apply hasIpc_append_right
  simp only [List.cons_append]
  exact hasIpc_Ipc _

theorem mt3_some_shape {s rep rest : List Char} (h : mt3 s = some (rep, rest)) :
    4 ≤ (s.takeWhile isWordChar).length ∧
      (s.takeWhile isWordChar).drop ((s.takeWhile isWordChar).length - 3) =
        'I' :: ('p' :: ('c' :: [])) ∧
      s = s.takeWhile isWordChar ++ (registerPat ++ rest) ∧
      rep = (s.takeWhile isWordChar).take ((s.takeWhile isWordChar).length - 3) ++
        "Handler.register".data := by
  unfold mt3 at h
  cases hd : dropPre registerPat (s.dropWhile isWordChar) with
  | none => rw [hd] at h; cases h
  | some post =>
    rw [hd] at h
    dsimp only at h
    by_cases hc : 4 ≤ (s.takeWhile isWordChar).length ∧
        (s.takeWhile isWordChar).drop ((s.takeWhile isWordChar).length - 3) =
          'I' :: ('p' :: ('c' :: []))
    · rw [if_pos hc] at h
      simp only [Option.some.injEq, Prod.mk.injEq] at h
      obtain ⟨hrep, hpost⟩ := h
      refine ⟨hc.1, hc.2, ?_, hrep.symm⟩
      have h1 := List.takeWhile_append_dropWhile (p := isWordChar) (l := s)
      rw [dropPre_sound hd, hpost] at h1
      exact h1.symm
    · rw [if_neg hc] at h
      cases h

theorem mt3_shrink {s rep rest : List Char} (h : mt3 s = some (rep, rest)) :
    rest.length < s.length := by
  obtain ⟨-, -, hs, -⟩ := mt3_some_shape h
  conv_rhs => rw [hs]
  simp [List.length_append, registerPat]
  omega

theorem mt3_some_hasIpc {s : List Char} {x : List Char × List Char}
    (h : mt3 s = some x) : hasIpc s = true := by
  obtain ⟨rep, rest⟩ := x
  obtain ⟨hlen, hdrop, hs, -⟩ := mt3_some_shape h
  set run := s.takeWhile isWordChar with hrun
  have hsplit : run = run.take (run.length - 3) ++ ('I' :: ('p' :: ('c' :: []))) := by
    conv_lhs => rw [← List.take_append_drop (run.length - 3) run]
    rw [hdrop]
  conv_lhs => rw [hs, hsplit]
  rw [List.append_assoc]
  apply hasIpc_append_right
  simp only [List.cons_append, List.nil_append]
  exact hasIpc_Ipc _

theorem hasMatch_mt1_false {s : List Char} (h : noQuote s = true) :
    hasMatch mt1 s = false := by
  induction s with
  | nil => rfl
  | cons c cs ih =>
    simp only [noQuote, List.all_cons, Bool.and_eq_true] at h
    have hc : c ≠ '"' := by simpa [notQuote] using h.1
    simp [hasMatch, mt1_none_head hc, ih h.2]

theorem hasMatch_mt2_false {s : List Char} (h : hasIpc s = false) :
    hasMatch mt2 s = false := by
  induction s with
  | nil => rfl
  | cons c cs ih =>
    simp only [hasIpc, Bool.or_eq_false_iff] at h
    have hnone : mt2 (c :: cs) = none := by
      cases hm : mt2 (c :: cs) with
      | none => rfl
      | some x =>
        exact absurd (mt2_some_hasIpc hm) (by simp [hasIpc, h.1, h.2])
    simp [hasMatch, hnone, ih h.2]

theorem hasMatch_mt3_false {s : List Char} (h : hasIpc s = false) :
    hasMatch mt3 s = false := by
  induction s with
  | nil => rfl
  | cons c cs ih =>
    simp only [hasIpc, Bool.or_eq_false_iff] at h
    have hnone : mt3 (c :: cs) = none := by
      cases hm : mt3 (c :: cs) with
      | none => rfl
      | some x =>
        exact absurd (mt3_some_hasIpc hm) (by simp [hasIpc, h.1, h.2])
    simp [hasMatch, hnone, ih h.2]

theorem hasMatch_mt2_false_word {s : List Char} (h : s.all isWordChar = true) :
    hasMatch mt2 s = false := by
  induction s with
  | nil => rfl
  | cons c cs ih =>
    simp only [List.all_cons, Bool.and_eq_true] at h
    have hnone : mt2 (c :: cs) = none := by
      cases hm : mt2 (c :: cs) with
      | none => rfl
      | some x =>
        have hsp := List.mem_cons.mp (mt2_some_space hm)
        have hw : isWordChar ' ' = true := by
          rcases hsp with h1 | h1
          · rw [h1]; exact h.1
          · exact (List.all_eq_true.mp h.2) _ h1
        exact absurd hw (by decide)
    simp [hasMatch, hnone, ih h.2]

theorem runSub_nil (mt : List Char → Option (List Char × List Char)) (fuel : Nat) :
    runSub mt fuel [] = [] := by
  cases fuel <;> rfl

theorem runSub_fuel {mt : List Char → Option (List Char × List Char)}
    (hm : ∀ s rep rest, mt s = some (rep, rest) → rest.length < s.length) :
    ∀ n m s, s.length ≤ n → s.length ≤ m → runSub mt n s = runSub mt m s := by
  intro n
  induction n with
  | zero =>
    intro m s hn _
    have : s = [] := List.eq_nil_of_length_eq_zero (Nat.le_zero.mp hn)
    subst this
    simp [runSub_nil]
  | succ n ih =>
    intro m s hn hm2
    cases s with
    | nil => simp [runSub_nil]
    | cons c cs =>
      cases m with
      | zero => simp at hm2
      | succ m2 =>
        rw [runSub, runSub]
        cases hmt : mt (c :: cs) with
        | none =>
          dsimp only
          have h1 : cs.length ≤ n := by
            simp only [List.length_cons] at hn
            omega
          have h2 : cs.length ≤ m2 := by
            simp only [List.length_cons] at hm2
            omega
          rw [ih m2 cs h1 h2]
        | some p =>
          obtain ⟨rep, rest⟩ := p
          dsimp only
          have hlt := hm _ _ _ hmt
          simp only [List.length_cons] at hlt hn hm2
          rw [ih m2 rest (by omega) (by omega)]

theorem runSub_noMatch {mt : List Char → Option (List Char × List Char)}
    {s : List Char} (h : hasMatch mt s = false) (fuel : Nat) :
    runSub mt fuel s = s := by
  induction fuel generalizing s with
  | zero => cases s <;> rfl
  | succ n ih =>
    cases s with
    | nil => rfl
    | cons c cs =>
      cases hmt : mt (c :: cs) with
      | some p =>
        rw [hasMatch, hmt] at h
        simp at h
      | none =>
        rw [hasMatch, hmt] at h
        simp only [Option.isSome_none, Bool.false_or] at h
        rw [runSub, hmt]
        rw [ih h]

theorem runSub_skip {mt : List Char → Option (List Char × List Char)}
    {pre rest : List Char}
    (h : ∀ p, p <:+ pre → p ≠ [] → mt (p ++ rest) = none) (fuel : Nat) :
    runSub mt (pre.length + fuel) (pre ++ rest) = pre ++ runSub mt fuel rest := by
  induction pre with
  | nil => simp
  | cons c pre2 ih =>
    have hc : mt (c :: (pre2 ++ rest)) = none := by
      have := h (c :: pre2) (List.suffix_refl _) (by simp)
      simpa using this
    rw [List.cons_append, List.length_cons]
    rw [show pre2.length + 1 + fuel = (pre2.length + fuel) + 1 from by omega]
    rw [runSub, hc]
    have h2 : ∀ p, p <:+ pre2 → p ≠ [] → mt (p ++ rest) = none := by
      intro p hp hne
      exact h p (hp.trans (List.suffix_cons c pre2)) hne
    rw [ih h2]
    simp

theorem runSub_step {mt : List Char → Option (List Char × List Char)}
    {s rep rest : List Char} (hne : s ≠ []) (h : mt s = some (rep, rest)) (fuel : Nat) :
    runSub mt (fuel + 1) s = rep ++ runSub mt fuel rest := by
  cases s with
  | nil => exact absurd rfl hne
  | cons c cs => rw [runSub, h]

theorem reSub_noMatch {mt : List Char → Option (List Char × List Char)}
    {s : List Char} (h : hasMatch mt s = false) : reSub mt s = s :=
  runSub_noMatch h _

theorem ipcRef_length (name : List Char) : (ipcRef name).length = name.length + 8 := by
  simp [ipcRef, ipcPat_eq]

theorem ipcRef_append_ne (name rest : List Char) : ipcRef name ++ rest ≠ [] := by
  rw [ipcRef_append, ipcPat_eq]
  simp

theorem sub1_chunk {pre name rest : List Char} (hpre : noQuote pre = true)
    (hne : name ≠ []) (hnq : noQuote name = true) {fuel : Nat} (hf : rest.length ≤ fuel) :
    runSub mt1 (pre.length + ((ipcRef name).length + fuel)) (pre ++ (ipcRef name ++ rest)) =
      pre ++ (handlerRef name ++ runSub mt1 fuel rest) := by
  have hskip : ∀ p, p <:+ pre → p ≠ [] → mt1 (p ++ (ipcRef name ++ rest)) = none := by
    intro p hsuf hpne
    cases p with
    | nil => exact absurd rfl hpne
    | cons d p2 =>
      have hmem : d ∈ pre := hsuf.subset (by simp)
      have hd : d ≠ '"' := by
        have := List.all_eq_true.mp hpre _ hmem
        simpa [notQuote] using this
      rw [List.cons_append]
      exact mt1_none_head hd _
  rw [runSub_skip hskip]
  congr 1
  have hmatch : mt1 (ipcRef name ++ rest) = some (handlerRef name, rest) := by
    rw [ipcRef_append]
    exact mt1_matches hne hnq rest
  rw [ipcRef_length,
    show name.length + 8 + fuel = (name.length + 7 + fuel) + 1 from by omega]
  rw [runSub_step (ipcRef_append_ne name rest) hmatch]
  congr 1
  exact runSub_fuel (fun s rep rest h => mt1_shrink h) _ _ rest (by omega) hf

theorem importPat_length : importPat.length = 12 := rfl

theorem importPat_ne : importPat ≠ [] := by decide

/-- A caught failure of `process_file`: either the read raised, or the content
changed and the write attempt raised (the write is only attempted on a
change). -/
def failureCaught : ReadOutcome → WriteOutcome → FileState → Prop
  | ReadOutcome.fail _, _, _ => True
  | ReadOutcome.ok, wo, st => processContent st.content ≠ st.content ∧ wo ≠ WriteOutcome.ok

/-- C1: for the input file content
`import * as authIpc from "./ipc/auth"; authIpc.register(app);`, applying the
three replacement rules in order produces exactly
`import * as authHandler from "./handlers/auth.handler"; authHandler.register(app);`. -/
theorem claim1_end_to_end :
    processContent "import * as authIpc from \"./ipc/auth\"; authIpc.register(app);" =
      "import * as authHandler from \"./handlers/auth.handler\"; authHandler.register(app);" := by
  decide

/-- C2, counterexample: the transformation is not idempotent on every input.
On `import * as aIpcIpc` the first pass rewrites the rightmost `Ipc` giving
`import * as aIpcHandler`, and a second pass rewrites the remaining `Ipc`
giving `import * as aHandlerHandler`. -/
theorem claim2_counterexample :
    processContent (processContent "import * as aIpcIpc") ≠
      processContent "import * as aIpcIpc" := by
  decide

/-- C2, amended: a second application of the full ordered rule set leaves the
first output unchanged whenever none of the three patterns matches that
output; this holds for contents like the spec's end-to-end example, but not
for every input (see the counterexample). -/
theorem claim2_amended (s : List Char)
    (h1 : hasMatch mt1 (applyAll s) = false)
    (h2 : hasMatch mt2 (applyAll s) = false)
    (h3 : hasMatch mt3 (applyAll s) = false) :
    applyAll (applyAll s) = applyAll s := by
  have e : applyAll (applyAll s) = reSub mt3 (reSub mt2 (reSub mt1 (applyAll s))) := rfl
  rw [e, reSub_noMatch h1, reSub_noMatch h2, reSub_noMatch h3]

/-- Witness for the amended C2: the spec's end-to-end example content is a
fixed point of the second application. -/
theorem claim2_amended_witness :
    applyAll (applyAll ("import * as authIpc from \"./ipc/auth\"; authIpc.register(app);").data) =
      applyAll ("import * as authIpc from \"./ipc/auth\"; authIpc.register(app);").data :=
  claim2_amended _ (by decide) (by decide) (by decide)

/-- C3: when none of the three patterns matches the content, the
transformation returns the content unchanged, no write is performed (the file
state is returned untouched, whatever the write outcome would have been), and
no `Updated` line — in fact no line at all — is printed by `process_file`. -/
theorem claim3_noop (st : FileState) (fp : String) (wo : WriteOutcome)
    (h1 : hasMatch mt1 st.content.data = false)
    (h2 : hasMatch mt2 st.content.data = false)
    (h3 : hasMatch mt3 st.content.data = false) :
    processContent st.content = st.content ∧
      process_file ReadOutcome.ok wo fp st = (st, []) := by
  have hid : applyAll st.content.data = st.content.data := by
    have e : applyAll st.content.data = reSub mt3 (reSub mt2 (reSub mt1 st.content.data)) := rfl
    rw [e, reSub_noMatch h1, reSub_noMatch h2, reSub_noMatch h3]
  have hpc : processContent st.content = st.content := by
    unfold processContent
    rw [hid]
  exact ⟨hpc, by simp [process_file, hpc]⟩

/-- Witness for C3 at the pattern-free content `hello`. -/
theorem claim3_witness :
    processContent "hello" = "hello" ∧
      process_file ReadOutcome.ok WriteOutcome.ok targetPath ⟨"hello"⟩ = (⟨"hello"⟩, []) :=
  claim3_noop ⟨"hello"⟩ targetPath WriteOutcome.ok (by decide) (by decide) (by decide)

/-- C4: every caught failure of the read or of the write makes `process_file`
emit exactly one error report carrying the path and the failure description,
and return normally (the model function is total: nothing is re-raised). -/
theorem claim4_error_report (ro : ReadOutcome) (wo : WriteOutcome) (fp : String)
    (st : FileState) (h : failureCaught ro wo st) :
    ∃ m, (process_file ro wo fp st).2 = [Line.error fp m] := by
  cases ro with
  | fail m => exact ⟨m, rfl⟩
  | ok =>
    obtain ⟨hch, hwo⟩ := h
    cases wo with
    | ok => exact absurd rfl hwo
    | openFail m => exact ⟨m, by simp [process_file, hch]⟩
    | failAfter k m => exact ⟨m, by simp [process_file, hch]⟩

/-- Witness for C4: a read failure (nonexistent path) produces the error
report naming the path. -/
theorem claim4_witness :
    ∃ m, (process_file (ReadOutcome.fail "No such file or directory") WriteOutcome.ok
        targetPath ⟨""⟩).2 = [Line.error targetPath m] :=
  claim4_error_report _ _ _ _ trivial

/-- C5, counterexample: a failure raised during the write itself is caught
and reported, but the file is not left unchanged: mode `w` already truncated
it, so the content after the invocation differs from the content before. -/
theorem claim5_counterexample :
    (process_file ReadOutcome.ok (WriteOutcome.failAfter 0 "disk full") targetPath
        ⟨"\"./ipc/a\""⟩).2 = [Line.error targetPath "disk full"] ∧
      (process_file ReadOutcome.ok (WriteOutcome.failAfter 0 "disk full") targetPath
        ⟨"\"./ipc/a\""⟩).1 ≠ (⟨"\"./ipc/a\""⟩ : FileState) := by
  decide

/-- C5, amended: a caught failure during the read, or when opening the file
for writing, leaves the target file's content unchanged; a caught failure
during the write itself leaves the file truncated to the prefix of the new
content written so far (so the original content may be lost). -/
theorem claim5_amended (ro : ReadOutcome) (wo : WriteOutcome) (fp : String)
    (st : FileState) :
    ((∃ m, ro = ReadOutcome.fail m) ∨ (∃ m, wo = WriteOutcome.openFail m) →
        (process_file ro wo fp st).1 = st) ∧
      (∀ k m, ro = ReadOutcome.ok → wo = WriteOutcome.failAfter k m →
        processContent st.content ≠ st.content →
        (process_file ro wo fp st).1 =
          ⟨String.mk ((processContent st.content).data.take k)⟩) := by
  constructor
  · rintro (⟨m, rfl⟩ | ⟨m, rfl⟩)
    · rfl
    · cases ro with
      | fail m2 => rfl
      | ok =>
        simp only [process_file]
        split <;> rfl
  · rintro k m rfl rfl hch
    simp only [process_file]
    rw [if_neg hch]

/-- Witness for the amended C5: a write failure after zero characters leaves
the file truncated to the empty prefix of the new content. -/
theorem claim5_amended_witness :
    (process_file ReadOutcome.ok (WriteOutcome.failAfter 0 "disk full") targetPath
        ⟨"\"./ipc/a\""⟩).1 =
      ⟨String.mk ((processContent "\"./ipc/a\"").data.take 0)⟩ :=
  (claim5_amended ReadOutcome.ok (WriteOutcome.failAfter 0 "disk full") targetPath
    ⟨"\"./ipc/a\""⟩).2 0 "disk full" rfl rfl (by decide)

/-- C8: for every input content the final string is the left fold of the
three rules in their listed order: rule 1 is applied to the original, rule 2
to rule 1's output, rule 3 to rule 2's output. -/
theorem claim8_fold_order (s : String) :
    processContent s = String.mk (reSub mt3 (reSub mt2 (reSub mt1 s.data))) := rfl

/-- C9: every run of the program — file rewritten, left unchanged, or a
caught error — ends with the line declaring the refactor successful. -/
theorem claim9_success_line (ro : ReadOutcome) (wo : WriteOutcome) (st : FileState) :
    ∃ l, (main_run ro wo st).2 = l ++ [Line.success] :=
  ⟨(process_file ro wo targetPath st).2, rfl⟩

/-- C10: the wildcard-import rule does not require the alias to end at `Ipc`:
for an alias made of a nonempty word-character run `w`, a literal `Ipc` and a
further word-character run `rest` containing no later `Ipc`, the rule fires
on the segment up to that last `Ipc`, turning `import * as <w>Ipc<rest>` into
`import * as <w>Handler<rest>`; in particular `import * as fooIpcBar` becomes
`import * as fooHandlerBar`, and an alias `<w>IpcHandler` (as left by a first
pass over `<w>IpcIpc`) is rewritten again on a subsequent pass. -/
theorem claim10_alias_inside (w rest : List Char) (hw : w ≠ [])
    (hww : w.all isWordChar = true) (hrw : rest.all isWordChar = true)
    (hri : hasIpc rest = false) :
    reSub mt2 (importPat ++ (w ++ ('I' :: ('p' :: ('c' :: rest))))) =
      importPat ++ (w ++ ("Handler".data ++ rest)) := by
  have hIw : isWordChar 'I' = true := by decide
  have hpw : isWordChar 'p' = true := by decide
  have hcw : isWordChar 'c' = true := by decide
  have hall : (w ++ ('I' :: ('p' :: ('c' :: rest)))).all isWordChar = true := by
    simp [List.all_append, List.all_cons, hww, hrw, hIw, hpw, hcw]
  have htw := takeWhile_word_all hall
  have hmt : mt2 (importPat ++ (w ++ ('I' :: ('p' :: ('c' :: rest))))) =
      some (importPat ++ (w ++ "Handler".data), rest) := by
    unfold mt2
    rw [dropPre_append]
    dsimp only
    rw [htw.1, lastIpcSplit_last hw hri]
    dsimp only
    rw [htw.2]
    simp [List.append_assoc]
  have hne2 : importPat ++ (w ++ ('I' :: ('p' :: ('c' :: rest)))) ≠ [] := by
    intro hcontr
    have hlen0 := congrArg List.length hcontr
    rw [List.length_append, importPat_length] at hlen0
    simp at hlen0
  have hlen : (importPat ++ (w ++ ('I' :: ('p' :: ('c' :: rest))))).length =
      ((importPat ++ (w ++ ('I' :: ('p' :: ('c' :: rest))))).length - 1) + 1 := by
    rw [List.length_append, importPat_length]
    omega
  unfold reSub
  rw [hlen, runSub_step hne2 hmt, runSub_noMatch (hasMatch_mt2_false_word hrw)]
  simp [List.append_assoc]

/-- Witness for C10 at the claim's own example: `import * as fooIpcBar`
becomes `import * as fooHandlerBar`. -/
theorem claim10_witness :
    reSub mt2 (importPat ++ ("foo".data ++ ('I' :: ('p' :: ('c' :: "Bar".data))))) =
      importPat ++ ("foo".data ++ ("Handler".data ++ "Bar".data)) :=
  claim10_alias_inside _ _ (by decide) (by decide) (by decide) (by decide)

/-- C6, counterexample: on the line
`import * as fooIpc from "./ipc/foo";` the occurrence `"./ipc/foo"` is indeed
replaced by `"./handlers/foo.handler"`, but characters outside that
occurrence are also altered (`fooIpc` becomes `fooHandler`), so the output is
not the line with only the occurrence replaced. -/
theorem claim6_counterexample :
    processContent "import * as fooIpc from \"./ipc/foo\";" ≠
        "import * as fooIpc from \"./handlers/foo.handler\";" ∧
      processContent "import * as fooIpc from \"./ipc/foo\";" =
        "import * as fooHandler from \"./handlers/foo.handler\";" := by
  decide

/-- C6, amended: for a line `pre ++ "./ipc/foo" ++ post` (quotes included in
the occurrence) whose surrounding characters contain no double quote and
which contains no occurrence of `Ipc`, the transformation replaces the
occurrence by `"./handlers/foo.handler"` and leaves every character outside
it unaltered; without those side conditions other rules (or further rule-1
matches) may rewrite text outside the occurrence, as in the counterexample. -/
theorem claim6_amended (pre post : List Char)
    (hq1 : noQuote pre = true) (hq2 : noQuote post = true)
    (hIpc : hasIpc (pre ++ (ipcRef "foo".data ++ post)) = false) :
    applyAll (pre ++ (ipcRef "foo".data ++ post)) =
      pre ++ (handlerRef "foo".data ++ post) := by
  have h1 : reSub mt1 (pre ++ (ipcRef "foo".data ++ post)) =
      pre ++ (handlerRef "foo".data ++ post) := by
    unfold reSub
    rw [List.length_append, List.length_append]
    rw [sub1_chunk hq1 (by decide) (by decide) (le_refl _)]
    rw [runSub_noMatch (hasMatch_mt1_false hq2)]
  have hpre : hasIpc pre = false := by
    cases hp : hasIpc pre with
    | false => rfl
    | true =>
      exact absurd (hasIpc_append_left hp (ipcRef "foo".data ++ post)) (by simp [hIpc])
  have hpost : hasIpc post = false := by
    cases hp : hasIpc post with
    | false => rfl
    | true =>
      have h2 := hasIpc_append_right hp (pre ++ ipcRef "foo".data)
      rw [List.append_assoc] at h2
      exact absurd h2 (by simp [hIpc])
  have hconc : handlerRef "foo".data =
      '"' :: ("./handlers/foo.handler".data ++ ('"' :: [])) := by decide
  have hshape : handlerRef "foo".data ++ post =
      '"' :: ("./handlers/foo.handler".data ++ ('"' :: post)) := by
    rw [hconc]
    simp [List.cons_append, List.append_assoc]
  have hout : hasIpc (pre ++ (handlerRef "foo".data ++ post)) = false := by
    cases hp : hasIpc (pre ++ (handlerRef "foo".data ++ post)) with
    | false => rfl
    | true =>
      exfalso
      rw [hshape] at hp
      rcases hasIpc_append_quote _ _ hp with h2 | h2
      · exact absurd h2 (by simp [hpre])
      · rcases hasIpc_append_quote _ _ h2 with h3 | h3
        · have h4 : hasIpc "./handlers/foo.handler".data = false := by decide
          exact absurd h3 (by simp [h4])
        · exact absurd h3 (by simp [hpost])
  have e : applyAll (pre ++ (ipcRef "foo".data ++ post)) =
      reSub mt3 (reSub mt2 (reSub mt1 (pre ++ (ipcRef "foo".data ++ post)))) := rfl
  rw [e, h1, reSub_noMatch (hasMatch_mt2_false hout),
    reSub_noMatch (hasMatch_mt3_false hout)]

/-- Witness for the amended C6 on the line `const p = "./ipc/foo";`. -/
theorem claim6_amended_witness :
    applyAll ("const p = ".data ++ (ipcRef "foo".data ++ ";".data)) =
      "const p = ".data ++ (handlerRef "foo".data ++ ";".data) :=
  claim6_amended _ _ (by decide) (by decide) (by decide)

/-- C7, counterexample: for the content `"./ipc/aIpc.register" "./ipc/b"`,
with the two distinct names `aIpc.register` and `b`, both occurrences are
rewritten, but the first captured name is not reinserted verbatim in the
final output: rule 3 afterwards rewrites `aIpc.register` to
`aHandler.register` inside the rewritten path. -/
theorem claim7_counterexample :
    processContent "\"./ipc/aIpc.register\" \"./ipc/b\"" =
        "\"./handlers/aHandler.register.handler\" \"./handlers/b.handler\"" ∧
      processContent "\"./ipc/aIpc.register\" \"./ipc/b\"" ≠
        "\"./handlers/aIpc.register.handler\" \"./handlers/b.handler\"" := by
  decide

/-- C7, amended: the path rule itself rewrites every occurrence (not only the
first) and reinserts each captured name verbatim: for a content
`p0 ++ "./ipc/<n1>" ++ p1 ++ "./ipc/<n2>" ++ p2` with distinct nonempty
quote-free names and quote-free text between the occurrences, rule 1's pass
produces `p0 ++ "./handlers/<n1>.handler" ++ p1 ++ "./handlers/<n2>.handler"
++ p2`; the later identifier rules may then further rewrite a name that
itself contains an `Ipc` fragment, as in the counterexample. -/
theorem claim7_amended (p0 n1 p1 n2 p2 : List Char)
    (h0 : noQuote p0 = true) (h1 : noQuote p1 = true) (h2 : noQuote p2 = true)
    (hn1 : n1 ≠ []) (hq1 : noQuote n1 = true)
    (hn2 : n2 ≠ []) (hq2 : noQuote n2 = true) (hne : n1 ≠ n2) :
    reSub mt1 (p0 ++ (ipcRef n1 ++ (p1 ++ (ipcRef n2 ++ p2)))) =
      p0 ++ (handlerRef n1 ++ (p1 ++ (handlerRef n2 ++ p2))) := by
  unfold reSub
  rw [List.length_append, List.length_append]
  rw [sub1_chunk h0 hn1 hq1 (le_refl _)]
  congr 1
  congr 1
  rw [List.length_append, List.length_append]
  rw [sub1_chunk h1 hn2 hq2 (le_refl _)]
  rw [runSub_noMatch (hasMatch_mt1_false h2)]

/-- Witness for the amended C7 on `a("./ipc/auth"); b("./ipc/user");`. -/
theorem claim7_amended_witness :
    reSub mt1
        ("a(".data ++ (ipcRef "auth".data ++ ("); b(".data ++ (ipcRef "user".data ++ (");").data)))) =
      "a(".data ++ (handlerRef "auth".data ++ ("); b(".data ++ (handlerRef "user".data ++ (");").data))) :=
  claim7_amended _ _ _ _ _ (by decide) (by decide) (by decide) (by decide) (by decide)
    (by decide) (by decide) (by decide)

end RefactorImports
